import Mathlib

/-!
# Verification of the eseb streaming authenticated-encryption layer

A shallow embedding of the record-and-stream encryption state machine of the
eseb repository (`src/encrypted_record_writer.rs`, `src/encrypting_writer.rs`,
`src/lib.rs`, `src/symmetric_key.rs`, `src/key_util.rs`) together with
executable models of its external collaborators (the libsodium secretstream
AEAD primitive, the brotli compression codec, the base64 text codec), and
proofs of the specification claims about it.

Bytes are modelled as `Nat`; byte strings as `List Nat`.  Fallible Rust code
returning `anyhow::Result` is modelled in `Except String`.
-/

namespace Eseb

/-- The secretstream chunk tag (`sodiumoxide::crypto::secretstream::Tag`). -/
inductive Tag
  | message
  | push
  | rekey
  | final
deriving DecidableEq, Repr

/-- Wire encoding of a tag inside the symbolic ciphertext model. -/
def tagByte : Tag → Nat
  | .message => 0
  | .push => 1
  | .rekey => 2
  | .final => 3

/-- Modelled from the spec: the generic compression codec (brotli) is an
external collaborator used as a callable transform (spec section 1 and the
section 6 contract: compress must not fail, decompress fails on malformed
input).  It is modelled as an executable length-prefixed coding: decompress
inverts compress and rejects any buffer that is not a whole compressed text,
in particular the empty buffer and strict prefixes of compressed texts. -/
def compressBytes (d : List Nat) : List Nat := d.length :: d

/-- Modelled from the spec: inverse of `compressBytes`; fails on malformed
input (anything that is not exactly the output of `compressBytes`). -/
def decompressBytes : List Nat → Except String (List Nat)
  | [] => .error "decompress"
  | n :: rest => if rest.length = n then .ok rest else .error "decompress"

/-- Modelled from the spec: the AEAD stream header, a small fixed-size public
value (24 bytes for xchacha20poly1305). -/
def headerBytes : List Nat := List.replicate 24 0

/-- Modelled from the spec: the push (encrypt) half of the AEAD stream
collaborator.  Only the finalization flag is state that the embedded code
observes. -/
structure PushStream where
  finalized : Bool
deriving DecidableEq, Repr

/-- Modelled from the spec: the pull (decrypt) half of the AEAD stream
collaborator. -/
structure PullStream where
  finalized : Bool
deriving DecidableEq, Repr

/-- Modelled from the spec: `secretstream push(payload, tag) -> ciphertext`.
The symbolic ciphertext is the tag byte followed by the payload; pushing on a
finalized stream fails and pushing a `Final` tag finalizes the stream. -/
def streamPush (s : PushStream) (payload : List Nat) (tag : Tag) :
    Except String (List Nat × PushStream) :=
  if s.finalized then .error "encrypt chunk"
  else .ok (tagByte tag :: payload, ⟨tag = Tag.final⟩)

/-- Modelled from the spec: `secretstream pull(ciphertext) -> (payload, tag)`;
fails on malformed input or when the stream is already finalized, and reports
the stream finalized exactly after pulling a `Final` tag. -/
def streamPull (s : PullStream) (c : List Nat) :
    Except String (List Nat × Tag × PullStream) :=
  if s.finalized then .error "decrypt chunk"
  else
    match c with
    | 0 :: p => .ok (p, Tag.message, ⟨false⟩)
    | 1 :: p => .ok (p, Tag.push, ⟨false⟩)
    | 2 :: p => .ok (p, Tag.rekey, ⟨false⟩)
    | 3 :: p => .ok (p, Tag.final, ⟨true⟩)
    | _ => .error "decrypt chunk"

/-- The downstream record sink (the `RecordWriter` collaborator): the ordered
list of records written so far, plus a count of forwarded flush calls. -/
structure Sink where
  recs : List (List Nat)
  flushes : Nat
deriving DecidableEq, Repr

/-- `RecordWriter::write_record` on the abstract sink. -/
def Sink.writeRecord (s : Sink) (r : List Nat) : Sink :=
  { s with recs := s.recs ++ [r] }

/-- `RecordWriter::flush` on the abstract sink. -/
def Sink.flushSink (s : Sink) : Sink :=
  { s with flushes := s.flushes + 1 }

/-- The empty sink. -/
def Sink.empty : Sink := ⟨[], 0⟩

/-- `DecryptState` from `encrypted_record_writer.rs`: the decrypt-side writer
state machine.  The key is opaque and modelled as a `Nat`. -/
inductive DecryptState
  | wantHeader (key : Nat)
  | wantData (stream : PullStream)
  | finished
deriving DecidableEq, Repr

/-- `DecryptingRecordWriter` from `encrypted_record_writer.rs`: `inner` is
`Option (sink, state, accumulation buffer)` exactly as in the source. -/
structure DecryptingRecordWriter where
  inner : Option (Sink × DecryptState × List Nat)
  compress : Bool
deriving DecidableEq, Repr

/-- `DecryptingRecordWriter::new`. -/
def DecryptingRecordWriter.new (sink : Sink) (key : Nat) (compress : Bool) :
    Except String DecryptingRecordWriter :=
  .ok { inner := some (sink, .wantHeader key, []), compress }

/-- `DecryptingRecordWriter::write_internal`: merge the accumulation buffer
with this chunk's cleartext, optionally decompress the merged unit, write it
downstream, and clear the buffer. -/
def writeInternal (writer : Sink) (buf cleartext : List Nat) (compress : Bool) :
    Except String (Sink × List Nat) :=
  let data := if buf.isEmpty then cleartext else buf ++ cleartext
  if compress then
    match decompressBytes data with
    | .error e => .error e
    | .ok v => .ok (writer.writeRecord v, [])
  else
    .ok (writer.writeRecord data, [])

/-- `DecryptingRecordWriter::write_record` (the `RecordWriter` impl): the
decrypt state machine over one pulled physical record. -/
def DecryptingRecordWriter.writeRecord (w : DecryptingRecordWriter)
    (data : List Nat) : Except String DecryptingRecordWriter :=
  match w.inner with
  | none => .error "already called finish"
  | some (writer, .wantHeader _key, buf) =>
      if data.length = 24 then
        .ok { w with inner := some (writer, .wantData ⟨false⟩, buf) }
      else
        .error "parse stream header"
  | some (writer, .wantData stream, buf) =>
      if stream.finalized then
        .error "stream marked finalized without Final tag"
      else
        match streamPull stream data with
        | .error e => .error e
        | .ok (cleartext, tag, stream') =>
          match tag with
          | .final =>
              if ¬ cleartext.isEmpty ∨ ¬ buf.isEmpty then
                match writeInternal writer buf cleartext w.compress with
                | .error e => .error e
                | .ok (writer', buf') =>
                    .ok { w with inner := some (writer', .finished, buf') }
              else
                .ok { w with inner := some (writer, .finished, buf) }
          | .message =>
              .ok { w with inner := some (writer, .wantData stream', buf ++ cleartext) }
          | .rekey => .error "received a Rekey tag which we don't use"
          | .push =>
              match writeInternal writer buf cleartext w.compress with
              | .error e => .error e
              | .ok (writer', buf') =>
                  .ok { w with inner := some (writer', .wantData stream', buf') }
  | some (_writer, .finished, _buf) => .error "write_record called after finished"

/-- `DecryptingRecordWriter::into_inner`: flush any residual accumulation
buffer as a final unit, then hand back the inner sink. -/
def DecryptingRecordWriter.intoInner (w : DecryptingRecordWriter) :
    Except String Sink :=
  match w.inner with
  | none => .error "already called finish"
  | some (writer, _state, buf) =>
      if ¬ buf.isEmpty then
        match writeInternal writer buf [] w.compress with
        | .error _ => .error "write final chunk at into_inner"
        | .ok (writer', _) => .ok writer'
      else
        .ok writer

/-- `DecryptingRecordWriter::flush` (the `RecordWriter` impl): forwards to the
inner sink's flush only. -/
def DecryptingRecordWriter.flushWriter (w : DecryptingRecordWriter) :
    Except String DecryptingRecordWriter :=
  match w.inner with
  | none => .error "flush called after finished"
  | some (writer, state, buf) =>
      .ok { w with inner := some (writer.flushSink, state, buf) }

/-- `EncryptingRecordWriter` from `encrypted_record_writer.rs`. -/
structure EncryptingRecordWriter where
  inner : Option Sink
  stream : PushStream
  compress : Bool
deriving DecidableEq, Repr

/-- `EncryptingRecordWriter::new`: initialize the push stream and write the
AEAD header as the very first physical record. -/
def EncryptingRecordWriter.new (sink : Sink) (_key : Nat) (compress : Bool) :
    Except String EncryptingRecordWriter :=
  .ok { inner := some (sink.writeRecord headerBytes), stream := ⟨false⟩, compress }

/-- `EncryptingRecordWriter::write_record_internal`: encrypt one chunk with
the given tag and write the ciphertext as one physical record. -/
def EncryptingRecordWriter.writeRecordInternal (w : EncryptingRecordWriter)
    (data : List Nat) (tag : Tag) : Except String EncryptingRecordWriter :=
  match streamPush w.stream data tag with
  | .error e => .error e
  | .ok (crypttext, stream') =>
      match w.inner with
      | none => .error "already called finish"
      | some sink =>
          .ok { w with inner := some (sink.writeRecord crypttext), stream := stream' }

/-- `EncryptingRecordWriter::write_record` (the `RecordWriter` impl): compress
the caller's record when enabled and push it as one `Push`-tagged chunk. -/
def EncryptingRecordWriter.writeRecord (w : EncryptingRecordWriter)
    (data : List Nat) : Except String EncryptingRecordWriter :=
  if w.compress then
    w.writeRecordInternal (compressBytes data) Tag.push
  else
    w.writeRecordInternal data Tag.push

/-- `EncryptingRecordWriter::into_inner`: push the empty `Final` chunk and
hand back the inner sink. -/
def EncryptingRecordWriter.intoInner (w : EncryptingRecordWriter) :
    Except String Sink :=
  match w.writeRecordInternal [] Tag.final with
  | .error e => .error e
  | .ok w' =>
      match w'.inner with
      | none => .error "already called finish"
      | some sink => .ok sink

/-- Write a list of records through an `EncryptingRecordWriter` in order. -/
def encWriteAll (w : EncryptingRecordWriter) :
    List (List Nat) → Except String EncryptingRecordWriter
  | [] => .ok w
  | r :: rs =>
      match w.writeRecord r with
      | .error e => .error e
      | .ok w' => encWriteAll w' rs

/-- The whole encrypt pipeline: construct the writer on an empty sink, write
every record, finalize, and return the physical records handed to the sink. -/
def encryptAll (compress : Bool) (records : List (List Nat)) :
    Except String (List (List Nat)) :=
  match EncryptingRecordWriter.new Sink.empty 0 compress with
  | .error e => .error e
  | .ok w =>
      match encWriteAll w records with
      | .error e => .error e
      | .ok w' =>
          match w'.intoInner with
          | .error e => .error e
          | .ok sink => .ok sink.recs

/-- Feed a list of physical records through a `DecryptingRecordWriter` in
order. -/
def decWriteAll (w : DecryptingRecordWriter) :
    List (List Nat) → Except String DecryptingRecordWriter
  | [] => .ok w
  | r :: rs =>
      match w.writeRecord r with
      | .error e => .error e
      | .ok w' => decWriteAll w' rs

/-- The whole record-oriented decrypt pipeline: feed every physical record to
a fresh `DecryptingRecordWriter`, finalize, and return the records emitted to
the downstream sink. -/
def decryptAllRW (compress : Bool) (cts : List (List Nat)) :
    Except String (List (List Nat)) :=
  match DecryptingRecordWriter.new Sink.empty 0 compress with
  | .error e => .error e
  | .ok w =>
      match decWriteAll w cts with
      | .error e => .error e
      | .ok w' =>
          match w'.intoInner with
          | .error e => .error e
          | .ok sink => .ok sink.recs

/-- The payload actually pushed for one caller record. -/
def maybeCompress (compress : Bool) (d : List Nat) : List Nat :=
  if compress then compressBytes d else d

/-- The physical chunk emitted for one caller record. -/
def pushChunk (compress : Bool) (d : List Nat) : List Nat :=
  tagByte Tag.push :: maybeCompress compress d

/-- `DecryptingRecordReader` from `encrypted_record_writer.rs`: pulls physical
records from an upstream ciphertext source (modelled as the list of remaining
records). -/
structure DecryptingRecordReader where
  inner : List (List Nat)
  stream : Option PullStream
  compress : Bool
  buf : List Nat
deriving DecidableEq, Repr

/-- `DecryptingRecordReader::new`: read and consume the header record. -/
def DecryptingRecordReader.new (inner : List (List Nat)) (_key : Nat)
    (compress : Bool) : Except String DecryptingRecordReader :=
  match inner with
  | [] => .error "read header"
  | data :: rest =>
      if data.length = 24 then .ok ⟨rest, some ⟨false⟩, compress, []⟩
      else .error "parse stream header"

/-- `DecryptingRecordReader::maybe_read_record_internal`: pull upstream
records, accumulating `Message` payloads into the buffer, until a `Push` or
`Final` chunk or clean end of input.  Returns the stream to keep (`none` after
`Final` or at end of input), the last chunk's cleartext, the remaining
upstream records, and the accumulation buffer. -/
def maybeReadRecordInternal :
    PullStream → List (List Nat) → List Nat →
      Except String (Option PullStream × List Nat × List (List Nat) × List Nat)
  | _stream, [], buf => .ok (none, [], [], buf)
  | stream, rec :: rest, buf =>
      match streamPull stream rec with
      | .error e => .error e
      | .ok (cleartext, tag, stream') =>
          match tag with
          | .final => .ok (none, cleartext, rest, buf)
          | .message => maybeReadRecordInternal stream' rest (buf ++ cleartext)
          | .rekey => .error "received a Rekey tag which we don't use"
          | .push => .ok (some stream', cleartext, rest, buf)

/-- `DecryptingRecordReader::maybe_read_record` (the `RecordReader` impl). -/
def DecryptingRecordReader.maybeReadRecord (r : DecryptingRecordReader) :
    Except String (Option (List Nat) × DecryptingRecordReader) :=
  match r.stream with
  | none => .ok (none, r)
  | some stream =>
      if stream.finalized then
        .error "stream marked finalized without Final tag"
      else
        match maybeReadRecordInternal stream r.inner [] with
        | .error e => .error e
        | .ok (stream', cleartext, rest, buf) =>
            if buf.isEmpty && cleartext.isEmpty then
              if stream'.isSome then
                .ok (some [], ⟨rest, stream', r.compress, buf⟩)
              else
                .ok (none, ⟨rest, stream', r.compress, buf⟩)
            else
              let buf2 :=
                if ¬ buf.isEmpty ∧ ¬ cleartext.isEmpty then buf ++ cleartext
                else if buf.isEmpty then cleartext
                else buf
              if r.compress then
                match decompressBytes buf2 with
                | .error e => .error e
                | .ok v => .ok (some v, ⟨rest, stream', r.compress, v⟩)
              else
                .ok (some buf2, ⟨rest, stream', r.compress, buf2⟩)

/-- `DecryptingReader` from `encrypting_writer.rs`: the byte-stream decrypt
reader with its internal double-ended byte queue. -/
structure DecryptingReader where
  inner : List (List Nat)
  stream : PullStream
  compress : Bool
  buf : List Nat
deriving DecidableEq, Repr

/-- `DecryptingReader::new`: read and consume the header record. -/
def DecryptingReader.new (inner : List (List Nat)) (_key : Nat)
    (compress : Bool) : Except String DecryptingReader :=
  match inner with
  | [] => .error "read header"
  | data :: rest =>
      if data.length = 24 then .ok ⟨rest, ⟨false⟩, compress, []⟩
      else .error "parse stream header"

/-- The loop of `DecryptingReader::fill_buf_internal`, entered with an empty
queue: pull records until the queue becomes non-empty or input is exhausted.
The pulled chunk's tag is ignored, exactly as in the source (`let (cleartext,
_tag) = ...`), and when compression is enabled each non-empty chunk is
decompressed on its own. -/
def fillBufLoop (compress : Bool) :
    PullStream → List (List Nat) →
      Except String (List Nat × PullStream × List (List Nat))
  | stream, [] => .ok ([], stream, [])
  | stream, rec :: rest =>
      match streamPull stream rec with
      | .error e => .error e
      | .ok (cleartext, _tag, stream') =>
          if compress && !cleartext.isEmpty then
            match decompressBytes cleartext with
            | .error e => .error e
            | .ok v =>
                if v.isEmpty then fillBufLoop compress stream' rest
                else .ok (v, stream', rest)
          else
            if cleartext.isEmpty then fillBufLoop compress stream' rest
            else .ok (cleartext, stream', rest)

/-- `DecryptingReader::fill_buf_internal`: returns the (non-empty) queue
contents, or the empty slice at end of stream. -/
def DecryptingReader.fillBufInternal (r : DecryptingReader) :
    Except String (List Nat × DecryptingReader) :=
  if r.buf.isEmpty then
    match fillBufLoop r.compress r.stream r.inner with
    | .error e => .error e
    | .ok (buf, stream', rest) => .ok (buf, ⟨rest, stream', r.compress, buf⟩)
  else
    .ok (r.buf, r)

/-- Reading the byte stream to exhaustion: repeatedly `fill_buf` then consume
the whole returned slice, until a zero-length fill signals end of stream.
`fuel` bounds the number of reads; `inner.length + 1` always suffices. -/
def readToEnd : Nat → DecryptingReader → Except String (List Nat)
  | 0, _ => .error "out of fuel"
  | fuel + 1, r =>
      match r.fillBufInternal with
      | .error e => .error e
      | .ok ([], _) => .ok []
      | .ok (chunk, r') =>
          match readToEnd fuel { r' with buf := [] } with
          | .error e => .error e
          | .ok restBytes => .ok (chunk ++ restBytes)

/-- The whole byte-stream decrypt pipeline: construct the reader on the
physical records and read to exhaustion. -/
def byteStreamDecrypt (compress : Bool) (cts : List (List Nat)) :
    Except String (List Nat) :=
  match DecryptingReader.new cts 0 compress with
  | .error e => .error e
  | .ok r => readToEnd (cts.length + 1) r

/-- Pull a list of ciphertext chunks through the AEAD stream, collecting the
tags, for stating the finalized-iff-Final invariant. -/
def pullTrace : PullStream → List (List Nat) → Except String (PullStream × List Tag)
  | s, [] => .ok (s, [])
  | s, c :: rest =>
      match streamPull s c with
      | .error e => .error e
      | .ok (_p, t, s') =>
          match pullTrace s' rest with
          | .error e => .error e
          | .ok (s'', ts) => .ok (s'', t :: ts)

/-! ## The whole-buffer convenience operations (`lib.rs`) -/

/-- The big-endian `u32` length prefix written by `lib.rs::write_record`
(`record.len() as u32`, so the length is truncated modulo `2^32`). -/
def u32be (n : Nat) : List Nat :=
  [n / 16777216 % 256, n / 65536 % 256, n / 256 % 256, n % 256]

/-- `lib.rs::write_record`: length-prefix framing onto a flat byte buffer. -/
def writeRecordBuf (w : List Nat) (record : List Nat) : List Nat :=
  w ++ u32be record.length ++ record

/-- Big-endian recombination of the four length bytes. -/
def beDecode (a b c d : Nat) : Nat :=
  a % 256 * 16777216 + b % 256 * 65536 + c % 256 * 256 + d % 256

/-- `lib.rs::read_record`: returns the record contents (empty at clean end of
input) and the unconsumed rest of the buffer. -/
def readRecordBuf : List Nat → Except String (List Nat × List Nat)
  | [] => .ok ([], [])
  | b0 :: r0 :: r1 :: r2 :: rest =>
      let len := beDecode b0 r0 r1 r2
      if rest.length < len then .error "read record"
      else .ok (rest.take len, rest.drop len)
  | _ => .error "read record length"

/-- The loop of `lib.rs::symmetric_decrypt_verify_file`: read a record, pull
it, check the finalized/Final-tag agreement, stop after `Final` (requiring
nothing but a clean end after it), otherwise append the message and continue.
`fuel` bounds iterations; `input.length + 1` always suffices. -/
def symDecryptLoop : Nat → PullStream → List Nat → List Nat → Except String (List Nat)
  | 0, _, _, _ => .error "out of fuel"
  | fuel + 1, stream, input, out =>
      match readRecordBuf input with
      | .error e => .error e
      | .ok (buf, input') =>
          match streamPull stream buf with
          | .error e => .error e
          | .ok (message, tag, stream') =>
              if stream'.finalized ≠ decide (tag = Tag.final) then
                .error "tag final mismatch"
              else if stream'.finalized then
                match readRecordBuf input' with
                | .error e => .error e
                | .ok (buf2, _) =>
                    if buf2.isEmpty then .ok out
                    else .error "data follows end of stream"
              else
                symDecryptLoop fuel stream' input' (out ++ message)

/-- `lib.rs::symmetric_decrypt_verify` (via `symmetric_decrypt_verify_file`
over an in-memory buffer): parameterized by the key alone. -/
def symmetricDecryptVerify (_key : Nat) (input : List Nat) :
    Except String (List Nat) :=
  match readRecordBuf input with
  | .error e => .error e
  | .ok (buf, input') =>
      if buf.length = 24 then
        let stream : PullStream := ⟨false⟩
        match readRecordBuf input' with
        | .error e => .error e
        | .ok (buf2, input'') =>
            if stream.finalized then
              .error "decrypt stream finalized earlier than expected"
            else
              match streamPull stream buf2 with
              | .error e => .error e
              | .ok (message, tag, stream') =>
                  if tag ≠ Tag.message then .error "incorrect tag"
                  else if ¬ message.isEmpty then .error "initial message not empty"
                  else symDecryptLoop (input''.length + 1) stream' input'' []
      else
        .error "parse encryption header"

/-- `lib.rs::symmetric_encrypt_sign` (via `symmetric_encrypt_sign_file` over
an in-memory buffer): header record, an initial empty `Message` chunk, one
`Push` chunk per `fill_buf` batch (a single batch for an in-memory reader,
none for an empty buffer), then the empty `Final` chunk.  Parameterized by
the key alone. -/
def symmetricEncryptSign (_key : Nat) (data : List Nat) :
    Except String (List Nat) :=
  match streamPush ⟨false⟩ [] Tag.message with
  | .error e => .error e
  | .ok (c0, s0) =>
      if data.isEmpty then
        match streamPush s0 [] Tag.final with
        | .error e => .error e
        | .ok (cF, _) =>
            .ok (writeRecordBuf (writeRecordBuf (writeRecordBuf [] headerBytes) c0) cF)
      else
        match streamPush s0 data Tag.push with
        | .error e => .error e
        | .ok (c1, s1) =>
            match streamPush s1 [] Tag.final with
            | .error e => .error e
            | .ok (cF, _) =>
                .ok (writeRecordBuf
                      (writeRecordBuf (writeRecordBuf (writeRecordBuf [] headerBytes) c0) c1) cF)

/-! ## Key material (`symmetric_key.rs`, `key_util.rs`)

Text is modelled as a list of character codes. -/

/-- Whitespace recognizer for `str::trim` (ASCII whitespace suffices for the
key format, which contains no character below code 43). -/
def isSpaceCode (c : Nat) : Bool := c = 32 || c = 9 || c = 10 || c = 13

/-- `str::trim`. -/
def trimCodes (l : List Nat) : List Nat :=
  ((l.dropWhile isSpaceCode).reverse.dropWhile isSpaceCode).reverse

/-- The standard base64 alphabet: sextet value to character code. -/
def sextetChar (n : Nat) : Nat :=
  if n < 26 then 65 + n
  else if n < 52 then 97 + (n - 26)
  else if n < 62 then 48 + (n - 52)
  else if n = 62 then 43
  else 47

/-- The standard base64 alphabet: character code to sextet value; fails on
characters outside the alphabet (including the pad character). -/
def charSextet (c : Nat) : Except String Nat :=
  if 65 ≤ c ∧ c ≤ 90 then .ok (c - 65)
  else if 97 ≤ c ∧ c ≤ 122 then .ok (c - 97 + 26)
  else if 48 ≤ c ∧ c ≤ 57 then .ok (c - 48 + 52)
  else if c = 43 then .ok 62
  else if c = 47 then .ok 63
  else .error "decode bas64"

/-- `base64::encode` (standard alphabet, `=` padding), an external
collaborator crate; implemented from the base64 definition on byte values
below 256. -/
def base64Encode : List Nat → List Nat
  | [] => []
  | [b1] => [sextetChar (b1 / 4), sextetChar (b1 % 4 * 16), 61, 61]
  | [b1, b2] =>
      [sextetChar (b1 / 4), sextetChar (b1 % 4 * 16 + b2 / 16),
       sextetChar (b2 % 16 * 4), 61]
  | b1 :: b2 :: b3 :: rest =>
      sextetChar (b1 / 4) :: sextetChar (b1 % 4 * 16 + b2 / 16) ::
      sextetChar (b2 % 16 * 4 + b3 / 64) :: sextetChar (b3 % 64) ::
      base64Encode rest

/-- `base64::decode`: inverse of `base64Encode`, rejecting malformed input.
A quartet ending in pad characters (and only a final quartet may be padded)
decodes to one or two bytes; any other quartet decodes to three bytes; `=`
anywhere else is outside the alphabet and rejected by `charSextet`. -/
def base64Decode : List Nat → Except String (List Nat)
  | [] => .ok []
  | c1 :: c2 :: c3 :: c4 :: rest =>
      if rest = [] ∧ c3 = 61 ∧ c4 = 61 then
        match charSextet c1 with
        | .error e => .error e
        | .ok s1 =>
            match charSextet c2 with
            | .error e => .error e
            | .ok s2 =>
                if s2 % 16 = 0 then .ok [s1 * 4 + s2 / 16]
                else .error "decode bas64"
      else if rest = [] ∧ c4 = 61 then
        match charSextet c1 with
        | .error e => .error e
        | .ok s1 =>
            match charSextet c2 with
            | .error e => .error e
            | .ok s2 =>
                match charSextet c3 with
                | .error e => .error e
                | .ok s3 =>
                    if s3 % 4 = 0 then
                      .ok [s1 * 4 + s2 / 16, s2 % 16 * 16 + s3 / 4]
                    else .error "decode bas64"
      else
        match charSextet c1 with
        | .error e => .error e
        | .ok s1 =>
            match charSextet c2 with
            | .error e => .error e
            | .ok s2 =>
                match charSextet c3 with
                | .error e => .error e
                | .ok s3 =>
                    match charSextet c4 with
                    | .error e => .error e
                    | .ok s4 =>
                        match base64Decode rest with
                        | .error e => .error e
                        | .ok bs =>
                            .ok ((s1 * 4 + s2 / 16) :: (s2 % 16 * 16 + s3 / 4) ::
                                 (s3 % 4 * 64 + s4) :: bs)
  | _ => .error "decode bas64"

/-- One bit round of CRC-16/ARC (reflected polynomial 0xA001). -/
def crcStep (c : Nat) : Nat := if c % 2 = 1 then c / 2 ^^^ 40961 else c / 2

/-- One byte of CRC-16/ARC. -/
def crcByte (c b : Nat) : Nat :=
  crcStep (crcStep (crcStep (crcStep
    (crcStep (crcStep (crcStep (crcStep (c ^^^ b % 256))))))))

/-- `crc16::State::<crc16::ARC>::calculate`: CRC-16/ARC with zero initial
value and zero xor-out, an external collaborator crate. -/
def crc16arc (data : List Nat) : Nat := data.foldl crcByte 0

/-- Decimal digit characters of `n`, most significant first (empty for 0);
`fuel ≥ n` always suffices. -/
def decDigitsCore : Nat → Nat → List Nat
  | 0, _ => []
  | fuel + 1, n =>
      if n = 0 then [] else decDigitsCore fuel (n / 10) ++ [n % 10 + 48]

/-- Decimal digit characters of `n`, most significant first. -/
def decDigits (n : Nat) : List Nat := decDigitsCore n n

/-- Zero-pad a digit string on the left to width 5 (`{:#05}`). -/
def pad5 (l : List Nat) : List Nat := List.replicate (5 - l.length) 48 ++ l

/-- Numeric value of a most-significant-first digit character string. -/
def digitsVal (l : List Nat) : Nat := l.foldl (fun a c => a * 10 + (c - 48)) 0

/-- Decimal digit character recognizer. -/
def isDigitCode (c : Nat) : Bool := 48 ≤ c && c < 58

/-- `str::parse::<u16>`: optional leading `+`, then one or more digits, value
at most 65535. -/
def parseU16 (s : List Nat) : Except String Nat :=
  let t := if s.head? = some 43 then s.tail else s
  if t.isEmpty then .error "parse crc16"
  else if t.all isDigitCode then
    if digitsVal t < 65536 then .ok (digitsVal t) else .error "parse crc16"
  else .error "parse crc16"

/-- `key_util.rs::crc_encode`: append `::` and the 5-digit zero-padded CRC-16
of the text from `start`. -/
def crcEncode (buf : List Nat) (start : Nat) : List Nat :=
  buf ++ [58, 58] ++ pad5 (decDigits (crc16arc (buf.drop start)))

/-- `key_util.rs::append_serialized`. -/
def appendSerialized (v : List Nat) (header : List Nat) (key : List Nat) :
    List Nat :=
  let start := v.length
  crcEncode (v ++ header ++ base64Encode key) start

/-- `key_util.rs::crc_decode`. -/
def crcDecode (buf : List Nat) (header : List Nat) : Except String (List Nat) :=
  if buf.length < 7 ∨ ¬ ((buf.drop (buf.length - 7)).take 2 = [58, 58]) then
    .error "expected ::xxxxx trailing 5 digit crc16"
  else
    match parseU16 (buf.drop (buf.length - 5)) with
    | .error e => .error e
    | .ok msgCrc =>
        let data := buf.take (buf.length - 7)
        if msgCrc ≠ crc16arc data then .error "crc16 mismatch"
        else base64Decode (data.drop header.length)

/-- `key_util.rs::parse_header`. -/
def parseHeaderText (data : List Nat) (header : List Nat) :
    Except String (List Nat) :=
  if header.isPrefixOf data then crcDecode data header
  else .error "key does not start with header"

/-- The `SymmetricKey::HEADER` constant `"eseb0::sym::"` as character codes. -/
def symHeader : List Nat := [101, 115, 101, 98, 48, 58, 58, 115, 121, 109, 58, 58]

/-- `SymmetricKey`: wraps the 32 secret key bytes. -/
structure SymmetricKey where
  key : List Nat
deriving DecidableEq, Repr

/-- `SymmetricKey::from_str`: trim, check the header, verify the CRC, decode
the base64 body, and require exactly 32 key bytes
(`xchacha20poly1305::Key::from_slice`). -/
def SymmetricKey.fromStr (data : List Nat) : Except String SymmetricKey :=
  match parseHeaderText (trimCodes data) symHeader with
  | .error e => .error e
  | .ok keyData =>
      if keyData.length = 32 then .ok ⟨keyData⟩
      else .error "sodiumoxide returned error attempting to parse the key"

/-- `KeyMaterial::key_bytes` for `SymmetricKey`. -/
def SymmetricKey.keyBytes (k : SymmetricKey) : List Nat := k.key

/-- `KeyMaterial::serialize_to_string` for `SymmetricKey`. -/
def SymmetricKey.serializeToString (k : SymmetricKey) : List Nat :=
  appendSerialized [] symHeader k.key

/-- Modelled from the spec: section 6 describes the two whole-buffer
convenience operations as "both parameterized by `(key, compress: bool)`".
This definition follows the spec's words — it is `symmetricEncryptSign` with
a compress parameter, applying the compression transform to the caller's one
buffer-unit before pushing it — for comparison against the operation the
source actually provides (which takes the key alone). -/
def symmetricEncryptSignSpeced (_key : Nat) (compress : Bool)
    (data : List Nat) : Except String (List Nat) :=
  match streamPush ⟨false⟩ [] Tag.message with
  | .error e => .error e
  | .ok (c0, s0) =>
      if data.isEmpty then
        match streamPush s0 [] Tag.final with
        | .error e => .error e
        | .ok (cF, _) =>
            .ok (writeRecordBuf (writeRecordBuf (writeRecordBuf [] headerBytes) c0) cF)
      else
        match streamPush s0 (maybeCompress compress data) Tag.push with
        | .error e => .error e
        | .ok (c1, s1) =>
            match streamPush s1 [] Tag.final with
            | .error e => .error e
            | .ok (cF, _) =>
                .ok (writeRecordBuf
                      (writeRecordBuf (writeRecordBuf (writeRecordBuf [] headerBytes) c0) c1) cF)

/-! ## Theorems -/

theorem decompress_compress (d : List Nat) :
    decompressBytes (compressBytes d) = .ok d := by
  simp [compressBytes, decompressBytes]

theorem writeRecord_eq_internal (w : EncryptingRecordWriter) (r : List Nat) :
    w.writeRecord r = w.writeRecordInternal (maybeCompress w.compress r) Tag.push := by
  cases hc : w.compress <;>
    simp [EncryptingRecordWriter.writeRecord, maybeCompress, hc]

theorem writeRecordInternal_ok (sink : Sink) (c : Bool) (data : List Nat) (tag : Tag) :
    EncryptingRecordWriter.writeRecordInternal ⟨some sink, ⟨false⟩, c⟩ data tag =
      .ok ⟨some (sink.writeRecord (tagByte tag :: data)), ⟨decide (tag = Tag.final)⟩, c⟩ := by
  simp [EncryptingRecordWriter.writeRecordInternal, streamPush]

theorem encWriteAll_ok (compress : Bool) :
    ∀ (rs : List (List Nat)) (sink : Sink),
      encWriteAll ⟨some sink, ⟨false⟩, compress⟩ rs =
        .ok ⟨some { sink with recs := sink.recs ++ rs.map (pushChunk compress) }, ⟨false⟩, compress⟩
  | [], sink => by simp [encWriteAll]
  | r :: rs, sink => by
      have ih := encWriteAll_ok compress rs (sink.writeRecord (pushChunk compress r))
      simp only [encWriteAll, writeRecord_eq_internal, writeRecordInternal_ok]
      simp only [Sink.writeRecord, pushChunk, tagByte] at ih ⊢
      simpa [List.append_assoc] using ih

theorem encryptAll_eq (compress : Bool) (records : List (List Nat)) :
    encryptAll compress records =
      .ok (headerBytes :: (records.map (pushChunk compress) ++ [[tagByte Tag.final]])) := by
  simp only [encryptAll, EncryptingRecordWriter.new, EncryptingRecordWriter.intoInner]
  simp only [encWriteAll_ok compress records (Sink.empty.writeRecord headerBytes)]
  simp [writeRecordInternal_ok, Sink.writeRecord, Sink.empty, tagByte]

theorem writeInternal_empty_buf (sink : Sink) (compress : Bool) (r : List Nat) :
    writeInternal sink [] (maybeCompress compress r) compress =
      .ok (sink.writeRecord r, []) := by
  cases compress <;>
    simp [writeInternal, maybeCompress, decompress_compress]

theorem decWriteAll_push_final (compress : Bool) :
    ∀ (rs : List (List Nat)) (sink : Sink),
      decWriteAll ⟨some (sink, .wantData ⟨false⟩, []), compress⟩
          (rs.map (pushChunk compress) ++ [[tagByte Tag.final]]) =
        .ok ⟨some ({ sink with recs := sink.recs ++ rs }, .finished, []), compress⟩
  | [], sink => by
      simp [decWriteAll, DecryptingRecordWriter.writeRecord, streamPull, tagByte]
  | r :: rs, sink => by
      have ih := decWriteAll_push_final compress rs (sink.writeRecord r)
      simp only [Sink.writeRecord, tagByte, List.append_assoc,
        List.singleton_append] at ih
      simp [decWriteAll, DecryptingRecordWriter.writeRecord, pushChunk, tagByte,
        streamPull, writeInternal_empty_buf, ih, List.append_assoc, Sink.writeRecord]

theorem decrypt_encrypted_records (compress : Bool) (records : List (List Nat)) :
    decryptAllRW compress
        (headerBytes :: (records.map (pushChunk compress) ++ [[tagByte Tag.final]])) =
      .ok records := by
  simp [decryptAllRW, DecryptingRecordWriter.new, decWriteAll,
    DecryptingRecordWriter.writeRecord, headerBytes,
    decWriteAll_push_final, DecryptingRecordWriter.intoInner, Sink.empty]

/-- C1: for every finite sequence of byte records (including the empty
sequence and zero-length records) and each compress setting, writing the
records through `EncryptingRecordWriter::write_record`, finalizing via
`into_inner`, and feeding each resulting physical ciphertext record in order
to `DecryptingRecordWriter::write_record` (finalized via `into_inner`) emits
exactly the original record sequence to the downstream record sink. -/
theorem record_pair_roundtrip (compress : Bool) (records : List (List Nat)) :
    (encryptAll compress records).bind (decryptAllRW compress) = .ok records := by
  rw [encryptAll_eq]
  simp only [Except.bind]
  exact decrypt_encrypted_records compress records

theorem readToEnd_succ (fuel : Nat) (r : DecryptingReader) :
    readToEnd (fuel + 1) r =
      (match r.fillBufInternal with
        | .error e => .error e
        | .ok ([], _) => .ok []
        | .ok (chunk, r') =>
            match readToEnd fuel { r' with buf := [] } with
            | .error e => .error e
            | .ok restBytes => .ok (chunk ++ restBytes)) := rfl

theorem readToEnd_mono :
    ∀ (fuel : Nat) (r : DecryptingReader) (x : List Nat),
      readToEnd fuel r = .ok x → readToEnd (fuel + 1) r = .ok x
  | 0, r, x => by simp [readToEnd]
  | fuel + 1, r, x => by
      intro h
      rw [readToEnd_succ] at h
      rw [readToEnd_succ]
      match hf : r.fillBufInternal with
      | .error e => simp [hf] at h
      | .ok ([], r') => simp [hf] at h ⊢; exact h
      | .ok (c :: cs, r') =>
          simp only [hf] at h ⊢
          match hr : readToEnd fuel { r' with buf := [] } with
          | .error e => rw [hr] at h; exact absurd h (by simp)
          | .ok y =>
              rw [hr] at h
              rw [readToEnd_mono fuel _ y hr]
              exact h

theorem byteRead_encrypted (compress : Bool) :
    ∀ records : List (List Nat),
      readToEnd (records.length + 2)
        ⟨records.map (pushChunk compress) ++ [[tagByte Tag.final]], ⟨false⟩, compress, []⟩ =
        .ok records.flatten
  | [] => by
      cases compress <;>
        simp [readToEnd, DecryptingReader.fillBufInternal, fillBufLoop,
          streamPull, tagByte]
  | [] :: rs => by
      have ih := byteRead_encrypted compress rs
      have hcong : (⟨(([] : List Nat) :: rs).map (pushChunk compress) ++ [[tagByte Tag.final]],
          ⟨false⟩, compress, []⟩ : DecryptingReader).fillBufInternal =
          (⟨rs.map (pushChunk compress) ++ [[tagByte Tag.final]],
            ⟨false⟩, compress, []⟩ : DecryptingReader).fillBufInternal := by
        cases compress <;>
          simp [DecryptingReader.fillBufInternal, fillBufLoop, pushChunk,
            maybeCompress, streamPull, tagByte, compressBytes, decompressBytes]
      have hlen : (([] : List Nat) :: rs).length + 2 = rs.length + 2 + 1 := by simp
      rw [hlen, readToEnd_succ, hcong, ← readToEnd_succ]
      simpa using readToEnd_mono (rs.length + 2) _ _ ih
  | (b :: bt) :: rs => by
      have ih := byteRead_encrypted compress rs
      have hfill : (⟨((b :: bt) :: rs).map (pushChunk compress) ++ [[tagByte Tag.final]],
          ⟨false⟩, compress, []⟩ : DecryptingReader).fillBufInternal =
          .ok (b :: bt, ⟨rs.map (pushChunk compress) ++ [[tagByte Tag.final]],
            ⟨false⟩, compress, b :: bt⟩) := by
        cases compress <;>
          simp [DecryptingReader.fillBufInternal, fillBufLoop, pushChunk,
            maybeCompress, streamPull, tagByte, compressBytes, decompressBytes]
      have hlen : ((b :: bt) :: rs).length + 2 = rs.length + 2 + 1 := by simp
      rw [hlen, readToEnd_succ, hfill]
      simp only []
      rw [ih]
      simp

/-- C3: for every finite sequence of records encrypted via
`EncryptingRecordWriter` (with either compress setting), decrypting the
resulting ciphertext through the record-oriented `DecryptingRecordWriter`
yields plaintext byte-identical (after concatenating emitted units) to the
bytes obtained by reading the same ciphertext to exhaustion through the
byte-stream `DecryptingReader`. -/
theorem record_and_byte_stream_agree (compress : Bool) (records : List (List Nat)) :
    ((encryptAll compress records).bind (decryptAllRW compress)).map List.flatten
      = (encryptAll compress records).bind (byteStreamDecrypt compress) := by
  rw [encryptAll_eq]
  simp only [Except.bind, Except.map]
  rw [decrypt_encrypted_records]
  simp only [byteStreamDecrypt, DecryptingReader.new, headerBytes,
    List.length_replicate, List.length_cons, List.length_append, List.length_map]
  norm_num
  have h := readToEnd_mono (records.length + 2) _ _ (byteRead_encrypted compress records)
  rw [show records.length + 1 + 1 + 1 = records.length + 2 + 1 from by ring] at *
  rw [h]

/-- C7: over the lifetime of an `EncryptingRecordWriter` for N calls to
`write_record`, the physical records handed to the underlying sink are
exactly: the AEAD header first, then N chunks tagged `Push` in call order
(each carrying the optionally compressed caller payload), then exactly one
`Final` chunk with empty payload at finalization; no emitted chunk carries
the `Rekey` tag. -/
theorem encrypt_wire_layout (compress : Bool) (records : List (List Nat)) :
    encryptAll compress records =
      .ok (headerBytes :: (records.map (pushChunk compress) ++ [[tagByte Tag.final]])) ∧
    (records.map (pushChunk compress) ++ [[tagByte Tag.final]]).all
      (fun c => c.head? != some (tagByte Tag.rekey)) = true := by
  refine ⟨encryptAll_eq compress records, ?_⟩
  simp only [List.all_eq_true, List.mem_append, List.mem_map]
  intro c hc
  rcases hc with ⟨r, _, rfl⟩ | hc
  · simp [pushChunk, tagByte]
  · simp only [List.mem_singleton] at hc
    subst hc
    simp [tagByte]

/-- C2 counterexample: the byte-stream `DecryptingReader` decompresses per
physical chunk, not per merged unit: a compressed unit split into a `Message`
chunk plus a `Push` chunk decodes fine through the record-oriented consumer
but fails with a decompression error through the byte-stream reader. -/
theorem byte_reader_splits_compressed_unit_cex :
    decryptAllRW true [headerBytes, tagByte Tag.message :: [3, 5],
        tagByte Tag.push :: [6, 7], [tagByte Tag.final]] = .ok [[5, 6, 7]] ∧
    byteStreamDecrypt true [headerBytes, tagByte Tag.message :: [3, 5],
        tagByte Tag.push :: [6, 7], [tagByte Tag.final]] = .error "decompress" :=
  ⟨rfl, rfl⟩

/-- C4 counterexample: the byte-stream `DecryptingReader` ignores the chunk
tag entirely, so it accepts a `Rekey`-tagged chunk and emits its payload,
while the record-oriented consumer fails on the same stream. -/
theorem byte_reader_ignores_rekey_cex :
    byteStreamDecrypt false [headerBytes, tagByte Tag.rekey :: [9], [tagByte Tag.final]] =
      .ok [9] ∧
    decryptAllRW false [headerBytes, tagByte Tag.rekey :: [9], [tagByte Tag.final]] =
      .error "received a Rekey tag which we don't use" :=
  ⟨rfl, rfl⟩

/-- C4 amended: the record-oriented decrypt consumers
(`DecryptingRecordWriter` and `DecryptingRecordReader`) fail immediately with
the unsupported-tag error whenever a pulled chunk carries the `Rekey` tag,
from any pullable state; the byte-stream `DecryptingReader` does not inspect
tags and does not detect `Rekey`. -/
theorem record_consumers_reject_rekey (c : Bool) (sink : Sink)
    (buf payload : List Nat) (rest : List (List Nat)) :
    DecryptingRecordWriter.writeRecord ⟨some (sink, .wantData ⟨false⟩, buf), c⟩
        (tagByte Tag.rekey :: payload) =
      .error "received a Rekey tag which we don't use" ∧
    DecryptingRecordReader.maybeReadRecord
        ⟨(tagByte Tag.rekey :: payload) :: rest, some ⟨false⟩, c, buf⟩ =
      .error "received a Rekey tag which we don't use" := by
  constructor
  · simp [DecryptingRecordWriter.writeRecord, streamPull, tagByte]
  · simp [DecryptingRecordReader.maybeReadRecord, maybeReadRecordInternal,
      streamPull, tagByte]

/-- C5 counterexample: after the `Final` chunk has been consumed,
`DecryptingRecordReader::maybe_read_record` returns a successful
end-of-stream `None`, not an error. -/
theorem reader_after_final_no_error_cex :
    (do
      let r ← DecryptingRecordReader.new [headerBytes, [tagByte Tag.final]] 0 false
      let (a, r1) ← r.maybeReadRecord
      let (b, _) ← r1.maybeReadRecord
      pure (a, b) : Except String (Option (List Nat) × Option (List Nat))) =
      .ok (none, none) := rfl

/-- C5 amended: after `Final` has been processed,
`DecryptingRecordWriter::write_record` fails with an error, while the reader
variants signal a clean end of stream: `DecryptingRecordReader` returns
`None` once its stream is gone and `DecryptingReader` returns a zero-length
fill once its input is exhausted. -/
theorem post_final_writer_errors_readers_eof (c : Bool) (sink : Sink)
    (buf data bufR : List Nat) (rest : List (List Nat)) (s : PullStream) :
    DecryptingRecordWriter.writeRecord ⟨some (sink, .finished, buf), c⟩ data =
      .error "write_record called after finished" ∧
    DecryptingRecordReader.maybeReadRecord ⟨rest, none, c, bufR⟩ =
      .ok (none, ⟨rest, none, c, bufR⟩) ∧
    DecryptingReader.fillBufInternal ⟨[], s, c, []⟩ = .ok ([], ⟨[], s, c, []⟩) := by
  refine ⟨rfl, rfl, ?_⟩
  simp [DecryptingReader.fillBufInternal, fillBufLoop]

/-- C9: for every `DecryptingRecordWriter` that still holds its state,
`flush` only forwards to the inner sink's flush and leaves the decrypt state
and the accumulation buffer unchanged: no buffered record data is emitted
downstream by flush. -/
theorem flush_preserves_decrypt_state (c : Bool) (sink : Sink)
    (state : DecryptState) (buf : List Nat) :
    DecryptingRecordWriter.flushWriter ⟨some (sink, state, buf), c⟩ =
      .ok ⟨some ({ sink with flushes := sink.flushes + 1 }, state, buf), c⟩ := by
  simp [DecryptingRecordWriter.flushWriter, Sink.flushSink]

theorem decWriteAll_append (w : DecryptingRecordWriter) :
    ∀ l1 l2 : List (List Nat),
      decWriteAll w (l1 ++ l2) =
        match decWriteAll w l1 with
        | .error e => .error e
        | .ok w' => decWriteAll w' l2
  | [], l2 => by simp [decWriteAll]
  | r :: rs, l2 => by
      simp only [List.cons_append, decWriteAll]
      match w.writeRecord r with
      | .error e => rfl
      | .ok w' => exact decWriteAll_append w' rs l2

theorem decWriteAll_messages (c : Bool) :
    ∀ (ps : List (List Nat)) (sink : Sink) (buf : List Nat),
      decWriteAll ⟨some (sink, .wantData ⟨false⟩, buf), c⟩
          (ps.map (fun p => tagByte Tag.message :: p)) =
        .ok ⟨some (sink, .wantData ⟨false⟩, buf ++ ps.flatten), c⟩
  | [], sink, buf => by simp [decWriteAll]
  | p :: ps, sink, buf => by
      have ih := decWriteAll_messages c ps sink (buf ++ p)
      simp only [tagByte, List.append_assoc] at ih
      simp [decWriteAll, DecryptingRecordWriter.writeRecord, streamPull, tagByte,
        List.append_assoc, ih]

theorem maybeReadInternal_messages :
    ∀ (ps : List (List Nat)) (rest : List (List Nat)) (buf : List Nat),
      maybeReadRecordInternal ⟨false⟩ (ps.map (fun p => tagByte Tag.message :: p) ++ rest) buf =
        maybeReadRecordInternal ⟨false⟩ rest (buf ++ ps.flatten)
  | [], rest, buf => by simp
  | p :: ps, rest, buf => by
      have ih := maybeReadInternal_messages ps rest (buf ++ p)
      simp only [tagByte, List.append_assoc] at ih
      simp [maybeReadRecordInternal, streamPull, tagByte, List.append_assoc, ih]

theorem decWriteAll_cons (w : DecryptingRecordWriter) (r : List Nat)
    (rs : List (List Nat)) :
    decWriteAll w (r :: rs) =
      (match w.writeRecord r with
        | .error e => .error e
        | .ok w' => decWriteAll w' rs) := rfl

theorem writeRecord_header (c : Bool) (sink : Sink) (key : Nat) (buf : List Nat) :
    DecryptingRecordWriter.writeRecord ⟨some (sink, .wantHeader key, buf), c⟩ headerBytes =
      .ok ⟨some (sink, .wantData ⟨false⟩, buf), c⟩ := by
  simp [DecryptingRecordWriter.writeRecord, headerBytes]

theorem writeRecord_push (c : Bool) (sink : Sink) (buf payload : List Nat) :
    DecryptingRecordWriter.writeRecord ⟨some (sink, .wantData ⟨false⟩, buf), c⟩
        (tagByte Tag.push :: payload) =
      (match writeInternal sink buf payload c with
        | .error e => .error e
        | .ok (sink', buf') => .ok ⟨some (sink', .wantData ⟨false⟩, buf'), c⟩) := by
  simp [DecryptingRecordWriter.writeRecord, streamPull, tagByte]

theorem writeRecord_final_empty (c : Bool) (sink : Sink) :
    DecryptingRecordWriter.writeRecord ⟨some (sink, .wantData ⟨false⟩, []), c⟩
        [tagByte Tag.final] =
      .ok ⟨some (sink, .finished, []), c⟩ := by
  simp [DecryptingRecordWriter.writeRecord, streamPull, tagByte]

theorem writeInternal_compressed (sink : Sink) (buf plast u : List Nat)
    (h : (if buf.isEmpty then plast else buf ++ plast) = compressBytes u) :
    writeInternal sink buf plast true = .ok (sink.writeRecord u, []) := by
  simp only [writeInternal]
  rw [h]
  simp [decompress_compress]

/-- Both record consumers decode a unit split into `Message` chunks plus a
terminating `Push` chunk by merging first and decompressing the merged unit
once. -/
theorem merge_then_decompress_push
    (ps : List (List Nat)) (plast : List Nat) (u : List Nat)
    (h : ps.flatten ++ plast = compressBytes u) :
    decryptAllRW true
        (headerBytes :: (ps.map (fun p => tagByte Tag.message :: p) ++
          [tagByte Tag.push :: plast, [tagByte Tag.final]])) = .ok [u] ∧
    (DecryptingRecordReader.new
        (headerBytes :: (ps.map (fun p => tagByte Tag.message :: p) ++
          [tagByte Tag.push :: plast, [tagByte Tag.final]])) 0 true).bind
      (fun r => r.maybeReadRecord.map Prod.fst) = .ok (some u) := by
  have hboth : ¬ (ps.flatten.isEmpty = true ∧ plast.isEmpty = true) := by
    intro ⟨h1, h2⟩
    rw [List.isEmpty_iff] at h1 h2
    rw [h1, h2] at h
    simp [compressBytes] at h
  have hmergeW : (if ps.flatten.isEmpty then plast else ps.flatten ++ plast) =
      compressBytes u := by
    by_cases h1 : ps.flatten.isEmpty
    · rw [List.isEmpty_iff] at h1
      rw [h1] at h
      simpa [List.isEmpty_iff, h1] using h
    · simpa [h1] using h
  have hmergeR : (if ¬ ps.flatten.isEmpty ∧ ¬ plast.isEmpty then ps.flatten ++ plast
      else if ps.flatten.isEmpty then plast else ps.flatten) = compressBytes u := by
    by_cases h1 : ps.flatten.isEmpty <;> by_cases h2 : plast.isEmpty
    · exact absurd ⟨h1, h2⟩ hboth
    · rw [List.isEmpty_iff] at h1
      rw [h1] at h
      simpa [h1, h2, List.isEmpty_iff] using h
    · rw [List.isEmpty_iff] at h2
      rw [h2] at h
      simpa [h1, h2, List.isEmpty_iff] using h
    · simpa [h1, h2] using h
  have handf : (ps.flatten.isEmpty && plast.isEmpty) = false := by
    cases h1 : ps.flatten.isEmpty <;> cases h2 : plast.isEmpty <;> simp_all
  constructor
  · simp only [decryptAllRW, DecryptingRecordWriter.new, decWriteAll_cons,
      writeRecord_header]
    rw [show (ps.map (fun p => tagByte Tag.message :: p) ++
        [tagByte Tag.push :: plast, [tagByte Tag.final]]) =
      ps.map (fun p => tagByte Tag.message :: p) ++
        ([tagByte Tag.push :: plast] ++ [[tagByte Tag.final]]) from by simp]
    simp only [decWriteAll_append, decWriteAll_messages, List.nil_append,
      decWriteAll_cons, writeRecord_push,
      writeInternal_compressed Sink.empty ps.flatten plast u hmergeW]
    simp only [decWriteAll, writeRecord_final_empty, decWriteAll_cons]
    simp [DecryptingRecordWriter.intoInner, Sink.writeRecord, Sink.empty]
  · simp only [DecryptingRecordReader.new, headerBytes, List.length_replicate]
    norm_num
    simp only [Except.bind, DecryptingRecordReader.maybeReadRecord]
    rw [show (ps.map (fun p => tagByte Tag.message :: p) ++
        [tagByte Tag.push :: plast, [tagByte Tag.final]]) =
      ps.map (fun p => tagByte Tag.message :: p) ++
        ([tagByte Tag.push :: plast] ++ [[tagByte Tag.final]]) from by simp]
    rw [show ([tagByte Tag.push :: plast] ++ [[tagByte Tag.final]]) =
      (tagByte Tag.push :: plast) :: [[tagByte Tag.final]] from rfl]
    rw [maybeReadInternal_messages ps ((tagByte Tag.push :: plast) :: [[tagByte Tag.final]]) []]
    simp only [maybeReadRecordInternal, streamPull, tagByte, List.nil_append]
    simp at hmergeR
    simp [handf, hmergeR, decompress_compress, Except.map]

/-- On a `Final` chunk whose payload or accumulation buffer is non-empty,
`DecryptingRecordWriter` merges the buffer with the chunk's cleartext,
flushes the merged unit through `write_internal`, and transitions to the
`Finished` state. -/
theorem writeRecord_final_payload (c : Bool) (sink : Sink) (buf payload : List Nat)
    (hne : ¬ (payload.isEmpty = true ∧ buf.isEmpty = true)) :
    DecryptingRecordWriter.writeRecord ⟨some (sink, .wantData ⟨false⟩, buf), c⟩
        (tagByte Tag.final :: payload) =
      (match writeInternal sink buf payload c with
        | .error e => .error e
        | .ok (sink', buf') => .ok ⟨some (sink', .finished, buf'), c⟩) := by
  simp only [DecryptingRecordWriter.writeRecord, streamPull, tagByte]
  norm_num
  intro h1 h2
  exact absurd ⟨by simp [h1], by simp [h2]⟩ hne

/-- Both record consumers decode a unit split into `Message` chunks plus a
terminating `Final` chunk carrying the last piece by merging first and
decompressing the merged unit once. -/
theorem merge_then_decompress_final
    (ps : List (List Nat)) (plast : List Nat) (u : List Nat)
    (h : ps.flatten ++ plast = compressBytes u) :
    decryptAllRW true
        (headerBytes :: (ps.map (fun p => tagByte Tag.message :: p) ++
          [tagByte Tag.final :: plast])) = .ok [u] ∧
    (DecryptingRecordReader.new
        (headerBytes :: (ps.map (fun p => tagByte Tag.message :: p) ++
          [tagByte Tag.final :: plast])) 0 true).bind
      (fun r => r.maybeReadRecord.map Prod.fst) = .ok (some u) := by
  have hboth : ¬ (ps.flatten.isEmpty = true ∧ plast.isEmpty = true) := by
    intro ⟨h1, h2⟩
    rw [List.isEmpty_iff] at h1 h2
    rw [h1, h2] at h
    simp [compressBytes] at h
  have hmergeW : (if ps.flatten.isEmpty then plast else ps.flatten ++ plast) =
      compressBytes u := by
    by_cases h1 : ps.flatten.isEmpty
    · rw [List.isEmpty_iff] at h1
      rw [h1] at h
      simpa [List.isEmpty_iff, h1] using h
    · simpa [h1] using h
  have hmergeR : (if ¬ ps.flatten.isEmpty ∧ ¬ plast.isEmpty then ps.flatten ++ plast
      else if ps.flatten.isEmpty then plast else ps.flatten) = compressBytes u := by
    by_cases h1 : ps.flatten.isEmpty <;> by_cases h2 : plast.isEmpty
    · exact absurd ⟨h1, h2⟩ hboth
    · rw [List.isEmpty_iff] at h1
      rw [h1] at h
      simpa [h1, h2, List.isEmpty_iff] using h
    · rw [List.isEmpty_iff] at h2
      rw [h2] at h
      simpa [h1, h2, List.isEmpty_iff] using h
    · simpa [h1, h2] using h
  have handf : (ps.flatten.isEmpty && plast.isEmpty) = false := by
    cases h1 : ps.flatten.isEmpty <;> cases h2 : plast.isEmpty <;> simp_all
  constructor
  · simp only [decryptAllRW, DecryptingRecordWriter.new, decWriteAll_cons,
      writeRecord_header]
    simp only [decWriteAll_append, decWriteAll_messages, List.nil_append,
      decWriteAll_cons,
      writeRecord_final_payload true Sink.empty ps.flatten plast (by tauto),
      writeInternal_compressed Sink.empty ps.flatten plast u hmergeW]
    simp only [decWriteAll]
    simp [DecryptingRecordWriter.intoInner, Sink.writeRecord, Sink.empty]
  · simp only [DecryptingRecordReader.new, headerBytes, List.length_replicate]
    norm_num
    simp only [Except.bind, DecryptingRecordReader.maybeReadRecord]
    rw [maybeReadInternal_messages ps [tagByte Tag.final :: plast] []]
    simp only [maybeReadRecordInternal, streamPull, tagByte, List.nil_append]
    simp at hmergeR
    simp [handf, hmergeR, decompress_compress, Except.map]

/-- C2 amended: the record-oriented decrypt consumers
(`DecryptingRecordWriter` and `DecryptingRecordReader`) apply decompression
exactly once per flushed (post-merge) unit: on a `Push`- or `Final`-tagged
chunk the chunk's decrypted bytes are merged with all prior `Message`
payloads and the whole accumulated unit is decompressed as one, so a unit
split into `Message` chunks plus a terminating `Push` or `Final` decodes to
the same plaintext however it was split; the byte-stream `DecryptingReader`
instead decompresses each non-empty physical chunk on its own (see the
counterexample). -/
theorem record_consumers_merge_then_decompress
    (ps : List (List Nat)) (plast : List Nat) (u : List Nat)
    (h : ps.flatten ++ plast = compressBytes u) :
    decryptAllRW true
        (headerBytes :: (ps.map (fun p => tagByte Tag.message :: p) ++
          [tagByte Tag.push :: plast, [tagByte Tag.final]])) = .ok [u] ∧
    (DecryptingRecordReader.new
        (headerBytes :: (ps.map (fun p => tagByte Tag.message :: p) ++
          [tagByte Tag.push :: plast, [tagByte Tag.final]])) 0 true).bind
      (fun r => r.maybeReadRecord.map Prod.fst) = .ok (some u) ∧
    decryptAllRW true
        (headerBytes :: (ps.map (fun p => tagByte Tag.message :: p) ++
          [tagByte Tag.final :: plast])) = .ok [u] ∧
    (DecryptingRecordReader.new
        (headerBytes :: (ps.map (fun p => tagByte Tag.message :: p) ++
          [tagByte Tag.final :: plast])) 0 true).bind
      (fun r => r.maybeReadRecord.map Prod.fst) = .ok (some u) :=
  ⟨(merge_then_decompress_push ps plast u h).1,
   (merge_then_decompress_push ps plast u h).2,
   (merge_then_decompress_final ps plast u h).1,
   (merge_then_decompress_final ps plast u h).2⟩

theorem streamPull_finalized_eq (s : PullStream) (c p : List Nat) (t : Tag)
    (s1 : PullStream) (h : streamPull s c = .ok (p, t, s1)) :
    s1.finalized = decide (t = Tag.final) := by
  simp only [streamPull] at h
  split at h
  · simp at h
  · split at h <;> simp at h <;>
      (obtain ⟨-, ht, hs1⟩ := h
       subst ht
       subst hs1
       rfl)

theorem streamPull_of_finalized (s : PullStream) (c : List Nat)
    (h : s.finalized = true) : streamPull s c = .error "decrypt chunk" := by
  simp [streamPull, h]

theorem pullTrace_length :
    ∀ (cts : List (List Nat)) (s s' : PullStream) (tags : List Tag),
      pullTrace s cts = .ok (s', tags) → tags.length = cts.length := by
  intro cts
  induction cts with
  | nil =>
      intro s s' tags h
      simp only [pullTrace, Except.ok.injEq, Prod.mk.injEq] at h
      simp [← h.2]
  | cons c rest ih =>
      intro s s' tags h
      simp only [pullTrace] at h
      split at h
      · exact absurd h (by simp)
      · split at h
        · exact absurd h (by simp)
        · next s2 ts heq =>
            simp only [Except.ok.injEq, Prod.mk.injEq] at h
            obtain ⟨h1, h2⟩ := h
            subst h1
            simp [← h2, ih _ _ _ heq]

theorem pullTrace_finalized :
    ∀ (cts : List (List Nat)) (s s' : PullStream) (tags : List Tag),
      s.finalized = false → pullTrace s cts = .ok (s', tags) →
        (s'.finalized = true ↔ tags.getLast? = some Tag.final) := by
  intro cts
  induction cts with
  | nil =>
      intro s s' tags hs h
      simp only [pullTrace, Except.ok.injEq, Prod.mk.injEq] at h
      obtain ⟨h1, h2⟩ := h
      subst h1; subst h2
      simp [hs]
  | cons c rest ih =>
      intro s s' tags hs h
      simp only [pullTrace] at h
      split at h
      · exact absurd h (by simp)
      · next p t s1 hpull =>
          split at h
          · exact absurd h (by simp)
          · next s2 ts htrace =>
              simp only [Except.ok.injEq, Prod.mk.injEq] at h
              obtain ⟨h1, h2⟩ := h
              subst h1; subst h2
              have hs1 := streamPull_finalized_eq s c p t s1 hpull
              by_cases ht : t = Tag.final
              · subst ht
                have hfin : s1.finalized = true := by simp [hs1]
                match rest, htrace with
                | [], htrace =>
                    simp only [pullTrace, Except.ok.injEq, Prod.mk.injEq] at htrace
                    obtain ⟨hr1, hr2⟩ := htrace
                    subst hr1; subst hr2
                    simp [hfin]
                | c' :: rest', htrace =>
                    rw [show pullTrace s1 (c' :: rest') =
                        (match streamPull s1 c' with
                          | .error e => .error e
                          | .ok (_p, t, s'') =>
                              match pullTrace s'' rest' with
                              | .error e => .error e
                              | .ok (s3, ts3) => .ok (s3, t :: ts3)) from rfl,
                      streamPull_of_finalized s1 c' hfin] at htrace
                    exact absurd htrace (by simp)
              · have hnf : s1.finalized = false := by simp [hs1, ht]
                have ihr := ih s1 s2 ts hnf htrace
                match ts, htrace with
                | [], htrace =>
                    have : (0 : Nat) = rest.length := pullTrace_length rest s1 s2 [] htrace
                    match rest, this with
                    | [], _ =>
                        simp only [pullTrace, Except.ok.injEq, Prod.mk.injEq] at htrace
                        obtain ⟨hr1, _⟩ := htrace
                        subst hr1
                        simp [hnf, ht]
                | t0 :: ts', htrace =>
                    rw [List.getLast?_cons_cons]
                    exact ihr

/-- C6: the AEAD stream reports finalized if and only if the most recently
processed chunk carried the `Final` tag (for every chunk sequence pulled from
a fresh stream); the record-oriented consumers raise the protocol-integrity
error on finding the stream finalized before pulling when no `Final` tag was
just processed; and any pull on a finalized stream fails, so every decrypt
consumer errors on a divergent stream state. -/
theorem finalized_iff_last_tag_final :
    (∀ (cts : List (List Nat)) (s' : PullStream) (tags : List Tag),
        pullTrace ⟨false⟩ cts = .ok (s', tags) →
          (s'.finalized = true ↔ tags.getLast? = some Tag.final)) ∧
    (∀ (c : Bool) (sink : Sink) (buf data : List Nat),
        DecryptingRecordWriter.writeRecord ⟨some (sink, .wantData ⟨true⟩, buf), c⟩ data =
          .error "stream marked finalized without Final tag") ∧
    (∀ (inner : List (List Nat)) (c : Bool) (buf : List Nat),
        DecryptingRecordReader.maybeReadRecord ⟨inner, some ⟨true⟩, c, buf⟩ =
          .error "stream marked finalized without Final tag") ∧
    (∀ chunk : List Nat, streamPull ⟨true⟩ chunk = .error "decrypt chunk") := by
  refine ⟨fun cts s' tags h => pullTrace_finalized cts ⟨false⟩ s' tags rfl h, ?_, ?_, ?_⟩
  · intro c sink buf data
    simp [DecryptingRecordWriter.writeRecord]
  · intro inner c buf
    simp [DecryptingRecordReader.maybeReadRecord]
  · intro chunk
    simp [streamPull]

/-- C6 witness: the invariant instantiated on the concrete one-chunk stream
consisting of a single `Final` chunk. -/
theorem finalized_iff_last_tag_final_witness :
    ((⟨true⟩ : PullStream).finalized = true ↔ ([Tag.final].getLast? = some Tag.final)) :=
  finalized_iff_last_tag_final.1 [[tagByte Tag.final]] ⟨true⟩ [Tag.final] rfl

/-- C2 witness: the amended claim at a concrete compressed unit split into
one `Message` chunk plus either a terminating `Push` chunk (followed by the
empty closing `Final`) or a terminating `Final` chunk carrying the last
piece. -/
theorem record_consumers_merge_then_decompress_witness :
    decryptAllRW true
        (headerBytes :: ([[3, 5]].map (fun p => tagByte Tag.message :: p) ++
          [tagByte Tag.push :: [6, 7], [tagByte Tag.final]])) = .ok [[5, 6, 7]] ∧
    (DecryptingRecordReader.new
        (headerBytes :: ([[3, 5]].map (fun p => tagByte Tag.message :: p) ++
          [tagByte Tag.push :: [6, 7], [tagByte Tag.final]])) 0 true).bind
      (fun r => r.maybeReadRecord.map Prod.fst) = .ok (some [5, 6, 7]) ∧
    decryptAllRW true
        (headerBytes :: ([[3, 5]].map (fun p => tagByte Tag.message :: p) ++
          [tagByte Tag.final :: [6, 7]])) = .ok [[5, 6, 7]] ∧
    (DecryptingRecordReader.new
        (headerBytes :: ([[3, 5]].map (fun p => tagByte Tag.message :: p) ++
          [tagByte Tag.final :: [6, 7]])) 0 true).bind
      (fun r => r.maybeReadRecord.map Prod.fst) = .ok (some [5, 6, 7]) :=
  record_consumers_merge_then_decompress [[3, 5]] [6, 7] [5, 6, 7] (by decide)

theorem beDecode_u32be (n : Nat) (h : n < 4294967296) :
    beDecode (n / 16777216 % 256) (n / 65536 % 256) (n / 256 % 256) (n % 256) = n := by
  simp only [beDecode]
  omega

theorem readRecord_frame (r rest : List Nat) (h : r.length < 4294967296) :
    readRecordBuf (u32be r.length ++ (r ++ rest)) = .ok (r, rest) := by
  simp only [u32be, List.cons_append, List.nil_append, readRecordBuf]
  rw [beDecode_u32be r.length h]
  rw [if_neg (by simp)]
  rw [List.take_left, List.drop_left]

theorem symmetricEncryptSign_nonempty (key : Nat) (data : List Nat) (hd : ¬ data.isEmpty) :
    symmetricEncryptSign key data =
      .ok (u32be headerBytes.length ++ (headerBytes ++ (u32be 1 ++ ([tagByte Tag.message] ++
        (u32be (tagByte Tag.push :: data).length ++ ((tagByte Tag.push :: data) ++
          (u32be 1 ++ ([tagByte Tag.final] ++ [])))))))) := by
  simp only [symmetricEncryptSign, streamPush, if_neg, Bool.not_eq_true] at *
  rw [if_neg (by simp [hd])]
  simp [writeRecordBuf, tagByte, List.append_assoc]

theorem symDecryptLoop_succ (fuel : Nat) (s : PullStream) (input out : List Nat) :
    symDecryptLoop (fuel + 1) s input out =
      (match readRecordBuf input with
        | .error e => .error e
        | .ok (buf, input') =>
            match streamPull s buf with
            | .error e => .error e
            | .ok (message, tag, stream') =>
                if stream'.finalized ≠ decide (tag = Tag.final) then
                  .error "tag final mismatch"
                else if stream'.finalized then
                  match readRecordBuf input' with
                  | .error e => .error e
                  | .ok (buf2, _) =>
                      if buf2.isEmpty then .ok out
                      else .error "data follows end of stream"
                else
                  symDecryptLoop fuel stream' input' (out ++ message)) := rfl

theorem symDecryptLoop_push_final (fuel : Nat) (out data : List Nat)
    (h : data.length + 1 < 4294967296) :
    symDecryptLoop (fuel + 2) ⟨false⟩
      (u32be (data.length + 1) ++ (1 :: (data ++ (u32be 1 ++ [3])))) out =
      .ok (out ++ data) := by
  rw [symDecryptLoop_succ]
  have hf : readRecordBuf (u32be (data.length + 1) ++ (1 :: (data ++ (u32be 1 ++ [3])))) =
      .ok (1 :: data, u32be 1 ++ [3]) := by
    simpa using readRecord_frame (1 :: data) (u32be 1 ++ [3]) (by simpa using h)
  rw [hf]
  simp only [streamPull]
  norm_num
  have hframe : readRecordBuf (u32be 1 ++ [3]) = .ok ([3], []) := by
    simpa using readRecord_frame [3] [] (by simp)
  simp [hframe, streamPull]
  rw [symDecryptLoop_succ, hframe]
  simp [streamPull, readRecordBuf]

/-- C8 amended: the two whole-buffer convenience operations are mutually
inverse — for every key and every byte buffer (of length below the u32
framing limit, including the empty buffer), `symmetric_decrypt_verify`
applied with the same key to the output of `symmetric_encrypt_sign` succeeds
and returns exactly the original buffer — but both operations are
parameterized by the key alone; the whole-buffer path has no compress
parameter. -/
theorem whole_buffer_roundtrip (key : Nat) (data : List Nat)
    (h : data.length + 1 < 4294967296) :
    (symmetricEncryptSign key data).bind (symmetricDecryptVerify key) = .ok data := by
  by_cases hd : data.isEmpty
  · rw [List.isEmpty_iff] at hd
    subst hd
    rfl
  · rw [symmetricEncryptSign_nonempty key data hd]
    simp only [Except.bind, symmetricDecryptVerify]
    rw [readRecord_frame headerBytes _ (by simp [headerBytes])]
    simp only []
    rw [if_pos (by simp [headerBytes])]
    have hf2 : ∀ rest : List Nat,
        readRecordBuf (u32be 1 ++ ([tagByte Tag.message] ++ rest)) =
          .ok ([tagByte Tag.message], rest) := fun rest => by
      simpa using readRecord_frame [tagByte Tag.message] rest (by simp)
    rw [hf2]
    simp only [streamPull, tagByte]
    norm_num
    rw [show (u32be (data.length + 1)).length + (data.length + ((u32be 1).length + 1) + 1) + 1 =
        data.length + 9 + 2 from by simp [u32be]; omega]
    rw [symDecryptLoop_push_final (data.length + 9) [] data h]
    simp

/-- C8 counterexample: the source's whole-buffer operations take the key
alone — there is no compress parameter.  Decrypt-verify applied to the output
of the spec-worded compress-parameterized encrypt (at compress = true) hands
back the still-compressed bytes rather than the original buffer, so the
claimed `(key, compress)` parameterization does not exist in the code. -/
theorem whole_buffer_no_compress_mode_cex :
    (symmetricEncryptSignSpeced 0 true [1, 2]).bind (symmetricDecryptVerify 0) =
      .ok (compressBytes [1, 2]) ∧
    compressBytes [1, 2] ≠ [1, 2] := by
  exact ⟨rfl, by decide⟩

/-- C8 witness: the whole-buffer round trip at a concrete key and buffer. -/
theorem whole_buffer_roundtrip_witness :
    ([9, 8, 7] : List Nat).length + 1 < 4294967296 ∧
    (symmetricEncryptSign 0 [9, 8, 7]).bind (symmetricDecryptVerify 0) = .ok [9, 8, 7] :=
  ⟨by decide, whole_buffer_roundtrip 0 [9, 8, 7] (by decide)⟩

theorem sextetChar_ne_61 (n : Nat) : sextetChar n ≠ 61 := by
  unfold sextetChar
  split
  · omega
  · split
    · omega
    · split
      · omega
      · split <;> omega

theorem sextetChar_ge_43 (n : Nat) : 43 ≤ sextetChar n := by
  unfold sextetChar
  split
  · omega
  · split
    · omega
    · split
      · omega
      · split <;> omega

theorem charSextet_sextetChar (n : Nat) (h : n < 64) :
    charSextet (sextetChar n) = .ok n := by
  unfold sextetChar charSextet
  split
  · rw [if_pos (by omega)]
    congr 1
    omega
  · split
    · rw [if_neg (by omega), if_pos (by omega)]
      congr 1
      omega
    · split
      · rw [if_neg (by omega), if_neg (by omega), if_pos (by omega)]
        congr 1
        omega
      · split
        · rw [if_neg (by omega), if_neg (by omega), if_neg (by omega), if_pos (by omega)]
          congr 1
          omega
        · rw [if_neg (by omega), if_neg (by omega), if_neg (by omega),
            if_neg (by omega), if_pos (by omega)]
          congr 1
          omega

theorem base64_roundtrip :
    ∀ bs : List Nat, (∀ b ∈ bs, b < 256) →
      base64Decode (base64Encode bs) = .ok bs
  | [], _ => rfl
  | [b1], h => by
      have hb1 : b1 < 256 := h b1 (by simp)
      simp only [base64Encode, base64Decode]
      rw [if_pos (by simp)]
      rw [charSextet_sextetChar (b1 / 4) (by omega),
        charSextet_sextetChar (b1 % 4 * 16) (by omega)]
      simp only []
      rw [if_pos (by omega)]
      simp only [Except.ok.injEq, List.cons.injEq, and_true]
      omega
  | [b1, b2], h => by
      have hb1 : b1 < 256 := h b1 (by simp)
      have hb2 : b2 < 256 := h b2 (by simp)
      simp only [base64Encode, base64Decode]
      rw [if_neg (by simp [sextetChar_ne_61]), if_pos (by simp)]
      rw [charSextet_sextetChar (b1 / 4) (by omega),
        charSextet_sextetChar (b1 % 4 * 16 + b2 / 16) (by omega),
        charSextet_sextetChar (b2 % 16 * 4) (by omega)]
      simp only []
      rw [if_pos (by omega)]
      simp only [Except.ok.injEq, List.cons.injEq, and_true]
      omega
  | b1 :: b2 :: b3 :: rest, h => by
      have hb1 : b1 < 256 := h b1 (by simp)
      have hb2 : b2 < 256 := h b2 (by simp)
      have hb3 : b3 < 256 := h b3 (by simp)
      have ih := base64_roundtrip rest (fun b hb => h b (by simp [hb]))
      simp only [base64Encode, base64Decode]
      rw [if_neg (by simp [sextetChar_ne_61]), if_neg (by simp [sextetChar_ne_61])]
      rw [charSextet_sextetChar (b1 / 4) (by omega),
        charSextet_sextetChar (b1 % 4 * 16 + b2 / 16) (by omega),
        charSextet_sextetChar (b2 % 16 * 4 + b3 / 64) (by omega),
        charSextet_sextetChar (b3 % 64) (by omega)]
      simp only [ih]
      simp only [Except.ok.injEq, List.cons.injEq, and_true]
      refine ⟨by omega, by omega, by omega⟩

theorem crcStep_lt (c : Nat) (h : c < 65536) : crcStep c < 65536 := by
  unfold crcStep
  split
  · have h1 : c / 2 < 32768 := by omega
    have h2 : (40961 : Nat) < 65536 := by norm_num
    calc c / 2 ^^^ 40961 < 2 ^ 16 :=
          Nat.xor_lt_two_pow (by omega) (by norm_num)
      _ = 65536 := by norm_num
  · omega

theorem crcByte_lt (c b : Nat) (h : c < 65536) : crcByte c b < 65536 := by
  unfold crcByte
  have h0 : c ^^^ b % 256 < 65536 := by
    calc c ^^^ b % 256 < 2 ^ 16 := Nat.xor_lt_two_pow (by omega) (by omega)
      _ = 65536 := by norm_num
  exact crcStep_lt _ (crcStep_lt _ (crcStep_lt _ (crcStep_lt _
    (crcStep_lt _ (crcStep_lt _ (crcStep_lt _ (crcStep_lt _ h0)))))))

theorem crc16arc_lt (data : List Nat) : crc16arc data < 65536 := by
  have : ∀ (l : List Nat) (c : Nat), c < 65536 → l.foldl crcByte c < 65536 := by
    intro l
    induction l with
    | nil => intro c h; simpa using h
    | cons x t ih => intro c h; exact ih _ (crcByte_lt c x h)
  exact this data 0 (by norm_num)

theorem decDigitsCore_val :
    ∀ (fuel n : Nat), n ≤ fuel → ∀ a : Nat,
      List.foldl (fun x c => x * 10 + (c - 48)) a (decDigitsCore fuel n) =
        a * 10 ^ (decDigitsCore fuel n).length + n
  | 0, n, h, a => by
      have : n = 0 := by omega
      subst this
      simp [decDigitsCore]
  | fuel + 1, n, h, a => by
      by_cases hn : n = 0
      · subst hn; simp [decDigitsCore]
      · have h10 : n / 10 ≤ fuel := by
          have := Nat.div_lt_self (by omega : 0 < n) (by norm_num : 1 < 10)
          omega
        have ih := decDigitsCore_val fuel (n / 10) h10 a
        simp only [decDigitsCore, hn, if_neg, ite_false]
        rw [List.foldl_append, List.length_append]
        simp only [List.foldl_cons, List.foldl_nil, List.length_cons,
          List.length_nil, ih]
        have hd : n % 10 + 48 - 48 = n % 10 := by omega
        rw [hd]
        have hsplit : n / 10 * 10 + n % 10 = n := by omega
        calc (a * 10 ^ (decDigitsCore fuel (n / 10)).length + n / 10) * 10 + n % 10
            = a * (10 ^ (decDigitsCore fuel (n / 10)).length * 10) +
              (n / 10 * 10 + n % 10) := by ring
          _ = a * 10 ^ ((decDigitsCore fuel (n / 10)).length + (0 + 1)) + n := by
              rw [hsplit]
              rw [show (decDigitsCore fuel (n / 10)).length + (0 + 1) =
                (decDigitsCore fuel (n / 10)).length + 1 from by omega]
              rw [pow_succ]

theorem decDigitsCore_len :
    ∀ (fuel n k : Nat), n < 10 ^ k → (decDigitsCore fuel n).length ≤ k
  | 0, n, k, h => by simp [decDigitsCore]
  | fuel + 1, n, k, h => by
      by_cases hn : n = 0
      · subst hn; simp [decDigitsCore]
      · match k with
        | 0 => simp at h; omega
        | k + 1 =>
            have hp : (10 : Nat) ^ (k + 1) = 10 ^ k * 10 := pow_succ 10 k
            have h10 : n / 10 < 10 ^ k := by omega
            have ih := decDigitsCore_len fuel (n / 10) k h10
            simp only [decDigitsCore, hn, ite_false, List.length_append,
              List.length_cons, List.length_nil]
            omega

theorem decDigitsCore_digits :
    ∀ (fuel n : Nat), ∀ c ∈ decDigitsCore fuel n, 48 ≤ c ∧ c < 58
  | 0, n => by simp [decDigitsCore]
  | fuel + 1, n => by
      intro c hc
      by_cases hn : n = 0
      · subst hn; simp [decDigitsCore] at hc
      · simp only [decDigitsCore, hn, ite_false, List.mem_append,
          List.mem_singleton] at hc
        rcases hc with h | h
        · exact decDigitsCore_digits fuel (n / 10) c h
        · subst h
          have : n % 10 < 10 := Nat.mod_lt _ (by norm_num)
          omega

theorem digitsVal_replicate48 (k : Nat) (l : List Nat) :
    digitsVal (List.replicate k 48 ++ l) = digitsVal l := by
  induction k with
  | zero => simp
  | succ m ih =>
      simp only [digitsVal, List.replicate_succ, List.cons_append,
        List.foldl_cons] at ih ⊢
      simpa using ih

theorem digitsVal_decDigits (n : Nat) : digitsVal (decDigits n) = n := by
  have := decDigitsCore_val n n le_rfl 0
  simpa [decDigits, digitsVal] using this

theorem digitsVal_pad5_decDigits (n : Nat) :
    digitsVal (pad5 (decDigits n)) = n := by
  rw [pad5, digitsVal_replicate48, digitsVal_decDigits]

theorem pad5_length (l : List Nat) (h : l.length ≤ 5) : (pad5 l).length = 5 := by
  simp [pad5]
  omega

theorem decDigits_length (n : Nat) (h : n < 100000) : (decDigits n).length ≤ 5 := by
  exact decDigitsCore_len n n 5 (by norm_num; omega)

theorem pad5_decDigits_digits (n : Nat) :
    ∀ c ∈ pad5 (decDigits n), 48 ≤ c ∧ c < 58 := by
  intro c hc
  simp only [pad5, List.mem_append, List.mem_replicate] at hc
  rcases hc with ⟨-, h⟩ | h
  · omega
  · exact decDigitsCore_digits n n c h

theorem serialize_eq (k : SymmetricKey) :
    k.serializeToString =
      (symHeader ++ base64Encode k.key) ++ ([58, 58] ++
        pad5 (decDigits (crc16arc (symHeader ++ base64Encode k.key)))) := by
  simp [SymmetricKey.serializeToString, appendSerialized, crcEncode,
    List.append_assoc]

theorem crcDecode_eq (header pre ds : List Nat) (hds : ds.length = 5) :
    crcDecode (pre ++ ([58, 58] ++ ds)) header =
      (match parseU16 ds with
        | .error e => .error e
        | .ok msgCrc =>
            if msgCrc ≠ crc16arc pre then .error "crc16 mismatch"
            else base64Decode (pre.drop header.length)) := by
  have hlen : (pre ++ ([58, 58] ++ ds)).length = pre.length + 7 := by
    simp [hds]
  have hdrop7 : (pre ++ ([58, 58] ++ ds)).drop
      ((pre ++ ([58, 58] ++ ds)).length - 7) = [58, 58] ++ ds := by
    rw [hlen, show pre.length + 7 - 7 = pre.length from by omega]
    exact List.drop_left pre _
  have hdrop5 : (pre ++ ([58, 58] ++ ds)).drop
      ((pre ++ ([58, 58] ++ ds)).length - 5) = ds := by
    rw [hlen, show pre.length + 7 - 5 = pre.length + 2 from by omega,
      ← List.append_assoc]
    rw [show pre.length + 2 = (pre ++ [58, 58]).length from by simp]
    exact List.drop_left _ _
  have htake7 : (pre ++ ([58, 58] ++ ds)).take
      ((pre ++ ([58, 58] ++ ds)).length - 7) = pre := by
    rw [hlen, show pre.length + 7 - 7 = pre.length from by omega]
    exact List.take_left pre _
  unfold crcDecode
  rw [if_neg]
  · rw [hdrop5, htake7]
  · rw [hdrop7, hlen]
    simp

theorem parseU16_pad5_decDigits (n : Nat) (h : n < 65536) :
    parseU16 (pad5 (decDigits n)) = .ok n := by
  have hds5 : (pad5 (decDigits n)).length = 5 :=
    pad5_length _ (decDigits_length n (by omega))
  have hdigits := pad5_decDigits_digits n
  unfold parseU16
  have hhead : ¬ ((pad5 (decDigits n)).head? = some 43) := by
    match hm : pad5 (decDigits n) with
    | [] => rw [hm] at hds5; simp at hds5
    | d :: t =>
        have hd := hdigits d (by rw [hm]; simp)
        simp
        omega
  rw [if_neg hhead]
  rw [if_neg (by
    intro hempty
    rw [List.isEmpty_iff] at hempty
    rw [hempty] at hds5
    simp at hds5)]
  rw [if_pos (by
    rw [List.all_eq_true]
    intro c hc
    have := hdigits c hc
    simp [isDigitCode]
    omega)]
  rw [digitsVal_pad5_decDigits]
  rw [if_pos (by omega)]

theorem trimCodes_of_ge (l : List Nat) (h : ∀ c ∈ l, 43 ≤ c) :
    trimCodes l = l := by
  have hds : ∀ m : List Nat, (∀ c ∈ m, 43 ≤ c) → m.dropWhile isSpaceCode = m := by
    intro m hm
    cases m with
    | nil => rfl
    | cons a t =>
        have ha := hm a (by simp)
        rw [List.dropWhile_cons]
        rw [if_neg (by simp [isSpaceCode]; omega)]
  unfold trimCodes
  rw [hds l h, hds l.reverse (fun c hc => h c (List.mem_reverse.1 hc)),
    List.reverse_reverse]

theorem base64Encode_ge_43 : ∀ l : List Nat, ∀ c ∈ base64Encode l, 43 ≤ c
  | [] => by simp [base64Encode]
  | [b1] => by
      intro c hc
      simp only [base64Encode, List.mem_cons, List.not_mem_nil, or_false] at hc
      rcases hc with h | h | h | h <;> subst h <;>
        first
        | exact sextetChar_ge_43 _
        | omega
  | [b1, b2] => by
      intro c hc
      simp only [base64Encode, List.mem_cons, List.not_mem_nil, or_false] at hc
      rcases hc with h | h | h | h <;> subst h <;>
        first
        | exact sextetChar_ge_43 _
        | omega
  | b1 :: b2 :: b3 :: rest => by
      intro c hc
      simp only [base64Encode, List.mem_cons] at hc
      rcases hc with h | h | h | h | h
      · subst h; exact sextetChar_ge_43 _
      · subst h; exact sextetChar_ge_43 _
      · subst h; exact sextetChar_ge_43 _
      · subst h; exact sextetChar_ge_43 _
      · exact base64Encode_ge_43 rest c h

theorem serialize_ge_43 (k : SymmetricKey) :
    ∀ c ∈ (symHeader ++ base64Encode k.key) ++ ([58, 58] ++
        pad5 (decDigits (crc16arc (symHeader ++ base64Encode k.key)))), 43 ≤ c := by
  intro c hc
  simp only [List.mem_append] at hc
  rcases hc with (h | h) | (h | h)
  · have : ∀ c ∈ symHeader, 43 ≤ c := by decide
    exact this c h
  · exact base64Encode_ge_43 _ c h
  · have : c = 58 := by simpa using h
    omega
  · have := pad5_decDigits_digits _ c h
    omega

theorem fromStr_serialize (k : SymmetricKey) (hk : k.key.length = 32)
    (hb : ∀ b ∈ k.key, b < 256) :
    SymmetricKey.fromStr k.serializeToString = .ok k := by
  have hds5 : (pad5 (decDigits (crc16arc (symHeader ++ base64Encode k.key)))).length = 5 :=
    pad5_length _ (decDigits_length _ (by have := crc16arc_lt (symHeader ++ base64Encode k.key); omega))
  rw [serialize_eq]
  unfold SymmetricKey.fromStr
  rw [List.append_assoc]
  rw [trimCodes_of_ge _ (by
    have := serialize_ge_43 k
    rw [List.append_assoc] at this
    exact this)]
  unfold parseHeaderText
  rw [if_pos (by
    rw [← List.append_assoc, List.append_assoc symHeader]
    exact List.isPrefixOf_iff_prefix.2 (List.prefix_append symHeader _))]
  rw [← List.append_assoc symHeader (base64Encode k.key)]
  rw [crcDecode_eq symHeader _ _ hds5]
  rw [parseU16_pad5_decDigits _ (crc16arc_lt _)]
  dsimp only
  rw [if_neg (by simp)]
  rw [show (symHeader ++ base64Encode k.key).drop symHeader.length =
      base64Encode k.key from List.drop_left _ _]
  rw [base64_roundtrip k.key hb]
  dsimp only
  rw [if_pos hk]

theorem fromStr_crc_mismatch (pre ds : List Nat) (hds : ds.length = 5)
    (hdig : ∀ c ∈ ds, isDigitCode c = true)
    (hne : digitsVal ds ≠ crc16arc pre)
    (htrim : trimCodes (pre ++ ([58, 58] ++ ds)) = pre ++ ([58, 58] ++ ds)) :
    (SymmetricKey.fromStr (pre ++ ([58, 58] ++ ds))).isOk = false := by
  unfold SymmetricKey.fromStr
  rw [htrim]
  unfold parseHeaderText
  by_cases hpre : symHeader.isPrefixOf (pre ++ ([58, 58] ++ ds))
  · rw [if_pos hpre]
    rw [crcDecode_eq symHeader pre ds hds]
    have hdhead : ¬ (ds.head? = some 43) := by
      match hm : ds, hds with
      | d :: t, hds =>
          have hd := hdig d (by simp)
          simp only [isDigitCode, Bool.and_eq_true, decide_eq_true_eq] at hd
          simp
          omega
    unfold parseU16
    rw [if_neg hdhead]
    rw [if_neg (by
      intro hempty
      rw [List.isEmpty_iff] at hempty
      rw [hempty] at hds
      simp at hds)]
    rw [if_pos (List.all_eq_true.2 hdig)]
    by_cases hval : digitsVal ds < 65536
    · rw [if_pos hval]
      dsimp only
      rw [if_pos hne]
      rfl
    · rw [if_neg hval]
      rfl
  · rw [if_neg hpre]
    rfl

/-- C10: for every `SymmetricKey` (32 key bytes), parsing the text produced
by `serialize_to_string` via `FromStr` succeeds and yields a key whose key
bytes equal the original's — header, base64 body and trailing `::xxxxx`
crc16 all verify — and parsing fails for any string whose trailing 5-digit
crc16 does not match the crc16 computed over the preceding text. -/
theorem symmetric_key_text_roundtrip :
    (∀ k : SymmetricKey, k.key.length = 32 → (∀ b ∈ k.key, b < 256) →
        SymmetricKey.fromStr k.serializeToString = .ok k) ∧
    (∀ pre ds : List Nat, ds.length = 5 → (∀ c ∈ ds, isDigitCode c = true) →
        digitsVal ds ≠ crc16arc pre →
        trimCodes (pre ++ ([58, 58] ++ ds)) = pre ++ ([58, 58] ++ ds) →
        (SymmetricKey.fromStr (pre ++ ([58, 58] ++ ds))).isOk = false) :=
  ⟨fromStr_serialize, fromStr_crc_mismatch⟩

/-- C10 witness: the round trip at a concrete 32-byte key, and a rejection
at a concrete string whose trailing digits mismatch its crc16. -/
theorem symmetric_key_text_roundtrip_witness :
    SymmetricKey.fromStr (SymmetricKey.serializeToString ⟨List.replicate 32 7⟩) =
      .ok ⟨List.replicate 32 7⟩ ∧
    (SymmetricKey.fromStr ([120] ++ ([58, 58] ++ [48, 48, 48, 48, 48]))).isOk = false :=
  ⟨symmetric_key_text_roundtrip.1 ⟨List.replicate 32 7⟩ (by decide) (by decide),
   symmetric_key_text_roundtrip.2 [120] [48, 48, 48, 48, 48] (by decide) (by decide)
     (by decide) (by decide)⟩

end Eseb
